import Mathlib

/-!
# Verification of the frame-handling core of python-cpl (`cpl/frames.py`)

This file gives a shallow embedding of `cpl/frames.py` and proves (or refutes)
the specification claims about it.

Conventions of the embedding:
* Python `None`-able integer bounds become `Option Nat` (`none` = Python `None`).
* Python's `str.lower` is modelled by `slower` (ASCII lowering, which is what
  the tag strings in this code use).
* Dictionaries keyed by strings become association lists (`List (String × _)`)
  with insertion-order semantics, looked up by `slookup` and updated by `sset`,
  mirroring Python dict insertion/update behaviour.
* Fallible operations return `Option`/an error component instead of raising.
-/

set_option maxHeartbeats 1000000

namespace Frames

/-- ASCII lowercase of a character, as Python `str.lower` does on the ASCII
tag names used by this code. -/
def lowerChar (c : Char) : Char :=
  if 'A' ≤ c ∧ c ≤ 'Z' then Char.ofNat (c.toNat + 32) else c

/-- Model of Python `str.lower()` (ASCII). -/
def slower (s : String) : String := ⟨s.data.map lowerChar⟩

/-- Association-list lookup, modelling Python `dict.__getitem__` /
`key in dict`. -/
def slookup {α : Type} : List (String × α) → String → Option α
  | [], _ => none
  | (k, v) :: rest, t => if k = t then some v else slookup rest t

/-- Association-list set, modelling Python `dict.__setitem__`: update in place
if the key is present, append at the end otherwise (insertion order). -/
def sset {α : Type} : List (String × α) → String → α → List (String × α)
  | [], k, v => [(k, v)]
  | (k', v') :: rest, k, v =>
    if k' = k then (k, v) :: rest else (k', v') :: sset rest k v

/-- `FrameConfig` (the spec's TagSpec): a tag with optional min/max frame
counts; `none` models Python `None` ("unconstrained"). -/
structure FrameConfig where
  tag : String
  min : Option Nat
  max : Option Nat
deriving DecidableEq

/-- `FrameConfig.__init__`: a bound of `0` (the collaborator's encoding for
"unconstrained") is normalized to the absent representation `none`. -/
def FrameConfig.ofDecl (tag : String) (minf maxf : Nat) : FrameConfig :=
  { tag := tag
    min := if 0 < minf then some minf else none
    max := if 0 < maxf then some maxf else none }

/-- `FrameConfig.extend_range(min_frames, max_frames)`.  The Python code
checks its arguments against `None`, so the arguments are `Option Nat`;
note that `FrameList.__iter__` always passes the raw (non-`None`) integers. -/
def extendRange (fc : FrameConfig) (minf maxf : Option Nat) : FrameConfig :=
  { fc with
    min := (match fc.min, minf with
      | some m, some v => some (Nat.min m v)
      | some _, none => none
      | none, _ => none)
    max := (match fc.max, maxf with
      | some m, some v => some (Nat.max m v)
      | some _, none => none
      | none, _ => none) }

/-- A declared requirement triple `(tag, min, max)` as produced by the
recipe-requirements collaborator (`0` = unconstrained). -/
abbrev Decl := String × Nat × Nat

/-- One step of `FrameList.__iter__`'s scan:
`fc = s.setdefault(f[0], FrameConfig(f[0], f[1], f[2], self));
fc.extend_range(f[1], f[2])`.  The dict is keyed by the raw tag `f[0]`. -/
def regStep : List (String × FrameConfig) → Decl → List (String × FrameConfig)
  | [], d =>
    [(d.1, extendRange (FrameConfig.ofDecl d.1 d.2.1 d.2.2) (some d.2.1) (some d.2.2))]
  | (k, fc) :: rest, d =>
    if k = d.1 then (k, extendRange fc (some d.2.1) (some d.2.2)) :: rest
    else (k, fc) :: regStep rest d

/-- `FrameList.__iter__`: scan all requirement groups of the recipe, building
the per-tag registry by setdefault-and-widen. -/
def buildRegistry (groups : List (List Decl)) : List (String × FrameConfig) :=
  groups.flatten.foldl regStep []

/-- The net effect of one declaration on the registry entry for its own tag. -/
def mergeFor (o : Option FrameConfig) (d : Decl) : Option FrameConfig :=
  some (match o with
    | some fc => extendRange fc (some d.2.1) (some d.2.2)
    | none => extendRange (FrameConfig.ofDecl d.1 d.2.1 d.2.2) (some d.2.1) (some d.2.2))

theorem slookup_regStep (s : List (String × FrameConfig)) (d : Decl) (t : String) :
    slookup (regStep s d) t =
      if d.1 = t then mergeFor (slookup s t) d else slookup s t := by
  induction s with
  | nil =>
    by_cases h : d.1 = t <;> simp [regStep, slookup, mergeFor, h]
  | cons hd rest ih =>
    obtain ⟨k, fc⟩ := hd
    by_cases hk : k = d.1
    · by_cases ht : k = t
      · have hdt : d.1 = t := hk ▸ ht
        simp [regStep, slookup, mergeFor, hk, ht, hdt]
      · have hdt : ¬d.1 = t := fun h => ht (hk.trans h)
        simp [regStep, slookup, hk, ht, hdt]
    · by_cases ht : k = t
      · have hdt : ¬d.1 = t := fun h => hk (ht.trans h.symm)
        have htd : ¬t = d.1 := fun h => hdt h.symm
        simp [regStep, slookup, hk, ht, hdt, htd]
      · simp [regStep, slookup, hk, ht, ih]

theorem slookup_foldl_regStep (ds : List Decl) (s : List (String × FrameConfig))
    (t : String) :
    slookup (ds.foldl regStep s) t =
      (ds.filter (fun d => d.1 == t)).foldl mergeFor (slookup s t) := by
  induction ds generalizing s with
  | nil => rfl
  | cons d rest ih =>
    simp only [List.foldl_cons, List.filter_cons]
    by_cases h : d.1 = t
    · simp [h, ih, slookup_regStep]
    · simp [h, ih, slookup_regStep]

/-- The merged `min` bound exactly as claim C1 states it, in the spec's words:
the numeric minimum unless either declared min is unconstrained, in which case
the absent representation. -/
def claimedMergedMin (min1 min2 : Nat) : Option Nat :=
  if min1 = 0 ∨ min2 = 0 then none else some (Nat.min min1 min2)

/-- The merged `max` bound exactly as claim C1 states it, in the spec's words. -/
def claimedMergedMax (max1 max2 : Nat) : Option Nat :=
  if max1 = 0 ∨ max2 = 0 then none else some (Nat.max max1 max2)

/-- C1 counterexample: tag `"BIAS"` declared twice with bounds `(2, 5)` and
then `(0, 0)` (`0` = unconstrained).  The claim predicts an unconstrained
final min and max (`claimedMergedMin 2 0 = none`, `claimedMergedMax 5 0 =
none`), but the code's registry ends with `min = some 0` (the numeric zero,
not the absent representation) and `max = some 5` (the second unconstrained
declaration is ignored rather than widening to unconstrained). -/
theorem claim1_counterexample :
    slookup (buildRegistry [[("BIAS", 2, 5), ("BIAS", 0, 0)]]) "BIAS" =
      some ⟨"BIAS", some 0, some 5⟩ ∧
    claimedMergedMin 2 0 = none ∧ claimedMergedMax 5 0 = none ∧
    some 0 ≠ (none : Option Nat) ∧ some 5 ≠ (none : Option Nat) := by
  decide

/-- C1 amended: for a tag declared exactly twice with bounds `(min1, max1)`
and `(min2, max2)` (0 = unconstrained), the registry's final spec has
`min' = min(min1, min2)` over the raw declared numbers unless the FIRST
declared min is unconstrained (then unconstrained) — so a second
unconstrained min produces the numeric bound `0`, not the absent
representation; and `max' = max(max1, max2)` unless the FIRST declared max is
unconstrained (then unconstrained) — so a second unconstrained max is
ignored rather than widening to unconstrained. -/
theorem claim1_amended (groups : List (List Decl)) (t : String)
    (min1 max1 min2 max2 : Nat)
    (hfil : groups.flatten.filter (fun d => d.1 == t) =
      [(t, min1, max1), (t, min2, max2)]) :
    slookup (buildRegistry groups) t =
      some ⟨t, if min1 = 0 then none else some (Nat.min min1 min2),
               if max1 = 0 then none else some (Nat.max max1 max2)⟩ := by
  unfold buildRegistry
  rw [slookup_foldl_regStep, hfil]
  simp only [List.foldl_cons, List.foldl_nil]
  by_cases h1 : min1 = 0 <;> by_cases h2 : max1 = 0 <;>
    simp [mergeFor, FrameConfig.ofDecl, extendRange, slookup, h1, h2,
      Nat.pos_of_ne_zero, Nat.min_self, Nat.max_self]

/-- C1 amended, witness: tag `"BIAS"` declared twice, `(2, 5)` then `(1, 7)`
(alongside an unrelated tag), ends with `min = some 1 = min 2 1`,
`max = some 7 = max 5 7`. -/
theorem claim1_witness :
    slookup (buildRegistry [[("BIAS", 2, 5)], [("BIAS", 1, 7), ("FLAT", 0, 3)]])
        "BIAS" = some ⟨"BIAS", some 1, some 7⟩ := by
  simpa using claim1_amended [[("BIAS", 2, 5)], [("BIAS", 1, 7), ("FLAT", 0, 3)]]
    "BIAS" 2 5 1 7 (by decide)

/-! ## The description generator `FrameConfig._doc` (claim C9) -/

/-- Python 2's `>` on optional integers: `None` compares below every
integer, so `x > y` is true only when `x` is an integer and either `y` is
`None` or numerically smaller. -/
def pyGT : Option Nat → Option Nat → Bool
  | some a, some b => decide (b < a)
  | some _, none => true
  | none, _ => false

/-- Python 2 `'%i' % x`: formats an integer, raises `TypeError` (modelled as
`none`) when `x` is `None`. -/
def fmtI : Option Nat → Option String
  | some v => some (toString v)
  | none => none

/-- `FrameConfig._doc` (`frames.py` lines 37-50).  A `none` result models the
`TypeError` Python raises when a `%i` conversion is applied to `None`; the
`min > 1` branch really does format `self.max` (the source's literal
behaviour). -/
def FrameConfig.doc (fc : FrameConfig) : Option String :=
  let core : Option String :=
    if fc.max = some 1 then some " one frame"
    else if pyGT fc.min (some 1) && pyGT fc.max fc.min then
      (fmtI fc.min).bind (fun a => (fmtI fc.max).map
        (fun b => " list of " ++ a ++ "-" ++ b ++ " frames"))
    else if pyGT fc.max (some 1) then
      (fmtI fc.max).map (fun b => " one frame or list of max. " ++ b ++ " frames")
    else if pyGT fc.min (some 1) then
      (fmtI fc.max).map (fun b => " list of min. " ++ b ++ " frames")
    else some " one frame or list of frames"
  core.map (fun s =>
    if fc.min = none ∨ fc.min = some 0 then s ++ " (optional)" else s)

/-- The description function as the amended claim C9 states it: the claimed
five cases, except that the fourth case (`min > 1` with absent max, the only
reachable shape of that case) raises a `TypeError` (`none`) because the
source formats the absent `max` value there; `" (optional)"` is appended
exactly when `min` is absent or zero. -/
def docAmended (mn mx : Option Nat) : Option String :=
  let core : Option String :=
    match mx, mn with
    | some 1, _ => some " one frame"
    | some M, some m =>
      if 1 < m ∧ m < M then
        some (" list of " ++ toString m ++ "-" ++ toString M ++ " frames")
      else if 1 < M then
        some (" one frame or list of max. " ++ toString M ++ " frames")
      else if 1 < m then
        some (" list of min. " ++ toString M ++ " frames")
      else some " one frame or list of frames"
    | some M, none =>
      if 1 < M then
        some (" one frame or list of max. " ++ toString M ++ " frames")
      else some " one frame or list of frames"
    | none, some m =>
      if 1 < m then none
      else some " one frame or list of frames"
    | none, none => some " one frame or list of frames"
  core.map (fun s => if mn = none ∨ mn = some 0 then s ++ " (optional)" else s)

/-- C9 counterexample: the reachable TagSpec produced by the single
declaration `("DARK", 3, 0)` ("at least 3 frames") has `min = some 3`,
`max = none`, and its description generator raises a `TypeError` (modelled
as `none`) instead of producing the claimed `" list of min. N frames"`
text, because the fourth case formats the absent `max`. -/
theorem claim9_counterexample :
    ((slookup (buildRegistry [[("DARK", 3, 0)]]) "DARK").map FrameConfig.doc) =
      some none := by
  decide

/-- C9 amended: `FrameConfig._doc` is the five-case function of `(min, max)`
given by `docAmended`: `" one frame"` when `max == 1`; the bounded
`min`-`max` range when `min > 1` and `max > min`; `" one frame or list of
max. N frames"` when `max > 1` otherwise; when `min > 1` otherwise the
branch formats the `max` value — producing text only in the (unreachable)
`max = some M, M ≤ 1` shape and raising a `TypeError` (`none`) when `max`
is absent; else the default `" one frame or list of frames"`; with
`" (optional)"` appended exactly when `min` is absent or zero. -/
theorem claim9_amended (tag : String) (mn mx : Option Nat) :
    FrameConfig.doc ⟨tag, mn, mx⟩ = docAmended mn mx := by
  cases mn with
  | none =>
    cases mx with
    | none => rfl
    | some M =>
      by_cases h1 : M = 1
      · subst h1; rfl
      · by_cases h2 : 1 < M <;>
          simp [FrameConfig.doc, docAmended, pyGT, fmtI, h1, h2]
  | some m =>
    cases mx with
    | none =>
      by_cases h2 : 1 < m <;> by_cases h0 : m = 0 <;>
        simp [FrameConfig.doc, docAmended, pyGT, fmtI, h2, h0]
    | some M =>
      by_cases h1 : M = 1
      · subst h1
        by_cases h0 : m = 0 <;> simp [FrameConfig.doc, docAmended, pyGT, fmtI, h0]
      · by_cases hr : 1 < m ∧ m < M <;> by_cases hM : 1 < M <;>
          by_cases hm : 1 < m <;> by_cases h0 : m = 0 <;>
          simp [FrameConfig.doc, docAmended, pyGT, fmtI, h1, hr, hM, hm, h0]

/-! ## Frame values, tag resolution and `FrameList._aslist`
(claims C2, C6, C7, C8) -/

/-- A single frame item: a file name, or an in-memory pyfits `HDUList`
(whose contents we abstract as a list of HDU identifiers).  In Python an
`HDUList` is a `list` subclass, which is why `_aslist` tests
`isinstance(x, list) and not isinstance(x, pyfits.HDUList)`. -/
inductive Item where
  | path : String → Item
  | hdulist : List Nat → Item
deriving DecidableEq

/-- A value stored for a tag (or passed as an argument): Python `None`, a
single item, or a plain list of items. -/
inductive Value where
  | vnone : Value
  | vitem : Item → Value
  | vlist : List Item → Value
deriving DecidableEq

/-- Python truthiness of a stored value (`if f.value`): `None`, the empty
string, an empty `HDUList` and an empty list are falsy. -/
def Value.truthy : Value → Bool
  | .vnone => false
  | .vitem (.path s) => !(s == "")
  | .vitem (.hdulist l) => !l.isEmpty
  | .vlist l => !l.isEmpty

/-- Modelled from the spec: the `restricteddict` base container of
`FrameList` is code of this repository that is not under `src/`; per the
spec it supplies "dictionary semantics with a fixed/validated key domain and
parent-child value inheritance", keyed by the lowercased tag
(`FrameList._key`).  We therefore model a `FrameList` as: the registry's
TagSpecs in iteration order, each paired with its caller-supplied stored
value (`Value.vnone` when unset), plus the recipe's full tag vocabulary
(`self._recipe.tags`) and its default tag (`self._recipe.tag`). -/
structure FrameListState where
  entries : List (FrameConfig × Value)
  vocab : List String
  recipeTag : String
deriving DecidableEq

/-- `FrameList._gettag` (with the lowercased-key lookup of `_key`):
case-insensitively look the name up among the stored TagSpecs and return the
canonical tag; otherwise scan the recipe's vocabulary case-insensitively;
otherwise return the not-found sentinel (`None`, modelled as `none`). -/
def gettag (st : FrameListState) (name : String) : Option String :=
  match st.entries.find? (fun e => slower e.1.tag == slower name) with
  | some e => some e.1.tag
  | none => st.vocab.find? (fun u => slower name == slower u)

/-- The first stage of `FrameList._aslist`: `(f.tag, f.value)` for every
registry entry whose stored value is truthy and whose tag is not a key of
the keyword dict (`ndata is None` is always false there, since `**ndata` is
always a dict). -/
def storedFrames (st : FrameListState) (ndata : List (String × Value)) :
    List (String × Value) :=
  (st.entries.filter
      (fun e => e.2.truthy && !(ndata.any (fun p => p.1 == e.1.tag)))).map
    (fun e => (e.1.tag, e.2))

/-- The keyword stage of `FrameList._aslist`: resolve each keyword name via
`_gettag` and keep the pair only when the resolved tag is truthy (drop on
the `None` sentinel and on an empty canonical tag). -/
def kwFrames (st : FrameListState) (ndata : List (String × Value)) :
    List (String × Value) :=
  ndata.filterMap (fun p =>
    match gettag st p.1 with
    | some u => if u = "" then none else some (u, p.2)
    | none => none)

/-- The expansion step of `FrameList._aslist`: a plain list fans out into
one pair per element (in order); an `HDUList` (a `list` subclass, explicitly
excluded) and every other value stay a single pair. -/
def expandPair : String × Value → List (String × Value)
  | (t, Value.vlist l) => l.map (fun i => (t, Value.vitem i))
  | (t, v) => [(t, v)]

/-- `FrameList._aslist(*data, **ndata)`: stored values (minus keyword-named
tags), then positional items under the recipe default tag, then resolved
keyword items; finally the expansion pass. -/
def aslist (st : FrameListState) (data : List Value)
    (ndata : List (String × Value)) : List (String × Value) :=
  (storedFrames st ndata ++ data.map (fun d => (st.recipeTag, d)) ++
    kwFrames st ndata).flatMap expandPair

theorem gettag_slower (st : FrameListState) (n u : String)
    (h : gettag st n = some u) : slower u = slower n := by
  unfold gettag at h
  cases hf : st.entries.find? (fun e => slower e.1.tag == slower n) with
  | some e =>
    rw [hf] at h
    have := List.find?_some hf
    simp only [beq_iff_eq] at this
    cases h
    exact this
  | none =>
    rw [hf] at h
    have := List.find?_some h
    simp only [beq_iff_eq] at this
    exact this.symm

theorem gettag_eq_slower (st : FrameListState) (n1 n2 : String)
    (h : slower n1 = slower n2) : gettag st n1 = gettag st n2 := by
  unfold gettag
  rw [h]

/-- If `gettag` fails, no registry entry's tag lower-matches the name. -/
theorem gettag_none_entries (st : FrameListState) (n : String)
    (h : gettag st n = none) :
    ∀ e ∈ st.entries, ¬slower e.1.tag = slower n := by
  unfold gettag at h
  cases hf : st.entries.find? (fun e => slower e.1.tag == slower n) with
  | some e => rw [hf] at h; cases h
  | none =>
    intro e he
    have := List.find?_eq_none.mp hf e he
    simpa using this

theorem filter_expandPair (a t : String) (b : Value) :
    (expandPair (a, b)).filter (fun q => q.1 == t) =
      if a = t then expandPair (a, b) else [] := by
  cases b with
  | vnone => by_cases h : a = t <;> simp [expandPair, h]
  | vitem i => by_cases h : a = t <;> simp [expandPair, h]
  | vlist l =>
    by_cases h : a = t
    · subst h
      simp [expandPair, List.filter_eq_self]
    · simp only [expandPair, if_neg h, List.filter_eq_nil_iff]
      intro q hq
      obtain ⟨i, _, rfl⟩ := List.mem_map.mp hq
      simp [h]

theorem filter_bind_expand (t : String) (l : List (String × Value)) :
    (l.flatMap expandPair).filter (fun q => q.1 == t) =
      (l.filter (fun q => q.1 == t)).flatMap expandPair := by
  induction l with
  | nil => rfl
  | cons p rest ih =>
    obtain ⟨a, b⟩ := p
    by_cases h : a = t <;>
      simp [List.filter_append, filter_expandPair, ih, h, List.filter_cons]

/-- Every pair the stored-values stage contributes has a tag that is not a
key of the keyword dict. -/
theorem storedFrames_not_named (st : FrameListState)
    (ndata : List (String × Value)) :
    ∀ q ∈ storedFrames st ndata, ∀ p ∈ ndata, ¬p.1 = q.1 := by
  intro q hq p hp
  obtain ⟨e, he, rfl⟩ := List.mem_map.mp hq
  have := (List.mem_filter.mp he).2
  simp only [Bool.and_eq_true, Bool.not_eq_true', List.any_eq_false] at this
  intro hname
  exact absurd (by simpa using hname) (this.2 p hp)

/-- If no element of the keyword dict lower-matches `t`, the keyword stage
contributes no pair with tag `t`. -/
theorem kwFrames_filter_nil (st : FrameListState) (t : String)
    (ndata : List (String × Value))
    (h : ∀ p ∈ ndata, ¬slower p.1 = slower t) :
    (kwFrames st ndata).filter (fun q => q.1 == t) = [] := by
  induction ndata with
  | nil => rfl
  | cons p rest ih =>
    have hrest := ih (fun q hq => h q (List.mem_cons_of_mem p hq))
    have hp := h p (List.mem_cons_self p rest)
    simp only [kwFrames, List.filterMap_cons] at *
    cases hg : gettag st p.1 with
    | none => simpa [hg] using hrest
    | some u =>
      have hu : slower u = slower p.1 := gettag_slower st p.1 u hg
      have hut : ¬u = t := fun he => hp (he ▸ hu ▸ rfl)
      by_cases he : u = ""
      · simpa [hg, he] using hrest
      · simpa [hg, he, List.filter_cons, hut] using hrest

/-- The keyword stage's contribution for a tag supplied as keyword `(t, v)`:
exactly the pair `(t, v)`. -/
theorem kwFrames_filter_single (st : FrameListState) (t : String) (v : Value)
    (htne : ¬t = "") (hres : gettag st t = some t) :
    ∀ ndata : List (String × Value), (t, v) ∈ ndata →
      (∀ p ∈ ndata, slower p.1 = slower t → p = (t, v)) →
      (ndata.map Prod.fst).Nodup →
      (kwFrames st ndata).filter (fun q => q.1 == t) = [(t, v)] := by
  intro ndata
  induction ndata with
  | nil => intro h; cases h
  | cons p rest ih =>
    intro hmem hvar hnd
    by_cases hp : p = (t, v)
    · subst hp
      have hnotin : ∀ q ∈ rest, ¬slower q.1 = slower t := by
        intro q hq hlow
        have := hvar q (List.mem_cons_of_mem _ hq) hlow
        subst this
        have : t ∈ rest.map Prod.fst := List.mem_map.mpr ⟨(t, v), hq, rfl⟩
        exact (List.nodup_cons.mp (by simpa using hnd)).1 this
      have hrest := kwFrames_filter_nil st t rest hnotin
      simp only [kwFrames, List.filterMap_cons, hres]
      simpa [htne, List.filter_cons, kwFrames] using hrest
    · have hpl : ¬slower p.1 = slower t := by
        intro hlow
        exact hp (hvar p (List.mem_cons_self p rest) hlow)
      have hmem' : (t, v) ∈ rest := by
        cases List.mem_cons.mp hmem with
        | inl h => exact absurd h.symm hp
        | inr h => exact h
      have hrest := ih hmem' (fun q hq => hvar q (List.mem_cons_of_mem _ hq))
        (List.nodup_cons.mp (by simpa using hnd)).2
      simp only [kwFrames, List.filterMap_cons]
      cases hg : gettag st p.1 with
      | none => simpa [kwFrames] using hrest
      | some u =>
        have hu : slower u = slower p.1 := gettag_slower st p.1 u hg
        have hut : ¬u = t := fun he => hpl (hu.symm.trans (congrArg slower he))
        by_cases he : u = ""
        · simpa [he, kwFrames] using hrest
        · simpa [he, List.filter_cons, hut, kwFrames] using hrest

/-- C2: a TagSpec's stored non-empty value contributes a pair only if its
tag is not named among the keyword items (first conjunct, fully general);
and when the same tag `t` is supplied both as a stored value and as a
keyword item `(t, v)`, the canonical frame list's pairs for `t` are exactly
the expansion of the keyword-supplied `(t, v)` — never the stored value as
well.  (`Key membership `f.tag not in ndata` is Python dict membership,
i.e. exact string equality on the keyword names.) -/
theorem claim2_kw_overrides_stored (st : FrameListState) (data : List Value)
    (ndata : List (String × Value)) (t : String) (v : Value)
    (hmem : (t, v) ∈ ndata)
    (htne : ¬t = "")
    (hres : gettag st t = some t)
    (hrec : ¬st.recipeTag = t)
    (hvar : ∀ p ∈ ndata, slower p.1 = slower t → p = (t, v))
    (hnd : (ndata.map Prod.fst).Nodup) :
    (∀ q ∈ storedFrames st ndata, ∀ p ∈ ndata, ¬p.1 = q.1) ∧
    (aslist st data ndata).filter (fun q => q.1 == t) = expandPair (t, v) := by
  refine ⟨storedFrames_not_named st ndata, ?_⟩
  unfold aslist
  rw [filter_bind_expand]
  have hstored : (storedFrames st ndata).filter (fun q => q.1 == t) = [] := by
    rw [List.filter_eq_nil_iff]
    intro q hq
    have := storedFrames_not_named st ndata q hq (t, v) hmem
    simpa using fun he => this he.symm
  have hpos :
      ((data.map (fun d => (st.recipeTag, d))).filter (fun q => q.1 == t)) = [] := by
    rw [List.filter_eq_nil_iff]
    intro q hq
    obtain ⟨d, _, rfl⟩ := List.mem_map.mp hq
    simpa using hrec
  rw [List.filter_append, List.filter_append, hstored, hpos,
    kwFrames_filter_single st t v htne hres ndata hmem hvar hnd]
  simp

/-- C2 witness: registry stores a truthy value for `"FLAT"`, the same tag is
also passed as a keyword item; the assembled list contains only the
keyword-supplied pair. -/
theorem claim2_witness :
    (aslist
        ⟨[(⟨"FLAT", some 1, none⟩, Value.vitem (Item.path "stored.fits"))],
          ["FLAT"], "SCIENCE"⟩
        [] [("FLAT", Value.vitem (Item.path "kw.fits"))]).filter
        (fun q => q.1 == "FLAT") =
      expandPair ("FLAT", Value.vitem (Item.path "kw.fits")) := by
  exact (claim2_kw_overrides_stored
    ⟨[(⟨"FLAT", some 1, none⟩, Value.vitem (Item.path "stored.fits"))],
      ["FLAT"], "SCIENCE"⟩
    [] [("FLAT", Value.vitem (Item.path "kw.fits"))] "FLAT"
    (Value.vitem (Item.path "kw.fits"))
    (by decide) (by decide) (by decide) (by decide)
    (by decide) (by decide)).2

/-- C6: a keyword item whose name fails to resolve (case-insensitively)
against both the stored TagSpecs and the recipe vocabulary is silently
omitted: assembling with it present yields exactly the same canonical frame
list as without it (no pair, no exception — the embedding is total). -/
theorem claim6_unresolved_dropped (st : FrameListState) (data : List Value)
    (name : String) (item : Value) (rest : List (String × Value))
    (h : gettag st name = none) :
    aslist st data ((name, item) :: rest) = aslist st data rest := by
  have hentries : ∀ e ∈ st.entries, ¬name = e.1.tag := by
    intro e he heq
    exact gettag_none_entries st name h e he (by rw [heq])
  have hstored : storedFrames st ((name, item) :: rest) = storedFrames st rest := by
    unfold storedFrames
    congr 1
    apply List.filter_congr
    intro e he
    have : (name == e.1.tag) = false := by
      simpa using hentries e he
    simp [List.any_cons, this]
  unfold aslist
  rw [hstored]
  have hkw : kwFrames st ((name, item) :: rest) = kwFrames st rest := by
    simp [kwFrames, List.filterMap_cons, h]
  rw [hkw]

/-- C6 witness: keyword name `"unknown"` resolves against neither the stored
specs nor the vocabulary and is dropped without error. -/
theorem claim6_witness :
    aslist ⟨[(⟨"BIAS", some 1, none⟩, Value.vnone)], ["BIAS", "FLAT"], "SCIENCE"⟩
        [Value.vitem (Item.path "a.fits")]
        [("unknown", Value.vitem (Item.path "b.fits"))] =
      aslist ⟨[(⟨"BIAS", some 1, none⟩, Value.vnone)], ["BIAS", "FLAT"], "SCIENCE"⟩
        [Value.vitem (Item.path "a.fits")] [] := by
  exact claim6_unresolved_dropped
    ⟨[(⟨"BIAS", some 1, none⟩, Value.vnone)], ["BIAS", "FLAT"], "SCIENCE"⟩
    [Value.vitem (Item.path "a.fits")] "unknown"
    (Value.vitem (Item.path "b.fits")) [] (by decide)

/-- C7: in the canonical frame list, a plain list item of N elements expands
into N pairs in element order, while an in-memory `HDUList` container is a
single atomic pair.  Stated for a keyword-supplied item on a registry with
no truthy stored values and no positional items, so the canonical list is
exactly the expansion of that one item. -/
theorem claim7_list_expansion (st : FrameListState) (name t : String)
    (l : List Item) (h : List Nat)
    (hres : gettag st name = some t) (htne : ¬t = "")
    (hquiet : ∀ e ∈ st.entries, e.2.truthy = false) :
    aslist st [] [(name, Value.vlist l)] =
      l.map (fun i => (t, Value.vitem i)) ∧
    aslist st [] [(name, Value.vitem (Item.hdulist h))] =
      [(t, Value.vitem (Item.hdulist h))] := by
  have hstored : ∀ nd, storedFrames st nd = [] := by
    intro nd
    unfold storedFrames
    rw [List.map_eq_nil_iff, List.filter_eq_nil_iff]
    intro e he
    simp [hquiet e he]
  constructor
  · unfold aslist
    rw [hstored]
    simp [kwFrames, List.filterMap_cons, hres, htne, expandPair]
  · unfold aslist
    rw [hstored]
    simp [kwFrames, List.filterMap_cons, hres, htne, expandPair]

/-- C7 witness: a keyword list of two paths expands to two pairs in order;
an `HDUList` of two HDUs stays one pair. -/
theorem claim7_witness :
    aslist ⟨[], ["SCI"], "SCI"⟩ []
        [("SCI", Value.vlist [Item.path "a.fits", Item.path "b.fits"])] =
      [("SCI", Value.vitem (Item.path "a.fits")),
        ("SCI", Value.vitem (Item.path "b.fits"))] ∧
    aslist ⟨[], ["SCI"], "SCI"⟩ []
        [("SCI", Value.vitem (Item.hdulist [0, 1]))] =
      [("SCI", Value.vitem (Item.hdulist [0, 1]))] := by
  have h := claim7_list_expansion ⟨[], ["SCI"], "SCI"⟩ "SCI" "SCI"
    [Item.path "a.fits", Item.path "b.fits"] [0, 1]
    (by decide) (by decide) (by intro e he; cases he)
  exact ⟨h.1, h.2⟩

/-- C8: tag-name resolution is case-insensitive: two names with the same
lowercasing resolve identically, and resolution succeeds exactly when some
stored TagSpec's tag or some vocabulary tag lower-matches the name;
otherwise the not-found sentinel (`none`) is returned. -/
theorem claim8_case_insensitive (st : FrameListState) (n1 n2 : String)
    (hcase : slower n1 = slower n2) :
    gettag st n1 = gettag st n2 ∧
    ((gettag st n1).isSome ↔
      ((∃ e ∈ st.entries, slower e.1.tag = slower n1) ∨
        ∃ u ∈ st.vocab, slower u = slower n1)) := by
  refine ⟨gettag_eq_slower st n1 n2 hcase, ?_⟩
  unfold gettag
  cases hf : st.entries.find? (fun e => slower e.1.tag == slower n1) with
  | some e =>
    have he := List.find?_some hf
    have hmem := List.mem_of_find?_eq_some hf
    simp only [beq_iff_eq] at he
    simp only [Option.isSome_some, true_iff]
    exact Or.inl ⟨e, hmem, he⟩
  | none =>
    have hno := List.find?_eq_none.mp hf
    simp only [beq_iff_eq] at hno
    constructor
    · intro hsome
      cases hv : st.vocab.find? (fun u => slower n1 == slower u) with
      | none => rw [hv] at hsome; cases hsome
      | some u =>
        have := List.find?_some hv
        simp only [beq_iff_eq] at this
        exact Or.inr ⟨u, List.mem_of_find?_eq_some hv, this.symm⟩
    · intro hex
      cases hex with
      | inl hent =>
        obtain ⟨e, he, hlow⟩ := hent
        exact absurd hlow (hno e he)
      | inr hvoc =>
        obtain ⟨u, hu, hlow⟩ := hvoc
        cases hv : st.vocab.find? (fun w => slower n1 == slower w) with
        | some w => simp [hv]
        | none =>
          have := List.find?_eq_none.mp hv u hu
          simp only [beq_iff_eq] at this
          exact absurd hlow.symm this

/-- C8 witness: `"Flat"`, `"FLAT"`, `"flat"` all resolve identically on a
registry storing `"FLAT"`, and an unrelated name is not found. -/
theorem claim8_witness :
    gettag ⟨[(⟨"FLAT", some 1, none⟩, Value.vnone)], ["DARK"], "SCI"⟩ "Flat" =
      gettag ⟨[(⟨"FLAT", some 1, none⟩, Value.vnone)], ["DARK"], "SCI"⟩ "flat" ∧
    (gettag ⟨[(⟨"FLAT", some 1, none⟩, Value.vnone)], ["DARK"], "SCI"⟩
        "Flat").isSome := by
  have h := claim8_case_insensitive
    ⟨[(⟨"FLAT", some 1, none⟩, Value.vnone)], ["DARK"], "SCI"⟩ "Flat" "flat"
    (by decide)
  refine ⟨h.1, h.2.mpr
    (Or.inl ⟨(⟨"FLAT", some 1, none⟩, Value.vnone), by decide, by decide⟩)⟩

/-! ## `Result.__init__` — decoding a raw recipe result
(claims C3, C4, C10) -/

/-- The exceptions `Result.__init__` can raise: the typed domain error
`CplError` (carrying the formatted message) and the `AttributeError` Python
raises when the grouping logic calls `.append` on a non-list pre-existing
attribute (`self.dir`'s string or `self.tags`'s set). -/
inductive PyErr where
  | cplError : String → PyErr
  | attributeError : PyErr
deriving DecidableEq

/-- A value in the decoded result's `__dict__` namespace: the working
directory string (`self.dir`), the tag set (`self.tags`, insertion-ordered),
a single opened image (identified by the absolute path it was opened from),
or a promoted list of opened images. -/
inductive Attr where
  | astr : String → Attr
  | atags : List String → Attr
  | aimage : String → Attr
  | aimages : List String → Attr
deriving DecidableEq

/-- Head character test: does the path start with `'/'`?  (Model of
`os.path.isabs` for the paths this code handles.) -/
def isAbsB (p : String) : Bool := p.data.head? == some '/'

/-- Model of `os.path.abspath`: absolute paths are kept, relative ones are
resolved against the current working directory (normalization elided). -/
def abspath (cwd p : String) : String :=
  if isAbsB p then p else cwd ++ "/" ++ p

/-- Decoder state: the dynamically-built `__dict__` (which also holds `dir`
and `tags`), plus traces of the files opened (by `pyfits.open`) and removed
(by `os.remove`). -/
structure DecodeState where
  dict : List (String × Attr)
  opened : List String
  removed : List String
deriving DecidableEq

/-- The raw result structure `(outputs, (error_flag, error_message,
error_location))` produced by the execution collaborator. -/
structure RawResult where
  outputs : List (String × String)
  errorFlag : Bool
  errorMessage : String
  errorLocation : String
deriving DecidableEq

/-- `self.tags.add(tag)`: set insertion into the `"tags"` entry of the
namespace (a no-op when already present). -/
def tagsAdd (d : List (String × Attr)) (t : String) : List (String × Attr) :=
  match slookup d "tags" with
  | some (Attr.atags s) => sset d "tags" (Attr.atags (if t ∈ s then s else s ++ [t]))
  | _ => d

/-- One iteration of the `for tag, frame in res[0]` loop of
`Result.__init__`: open the file (recorded in `opened`), optionally remove
it, lowercase the tag, then group: fresh tag → direct scalar attribute plus
tag-set insertion; existing single image → promote to a two-element list;
existing list → append; any other pre-existing attribute (the `dir` string
or the `tags` set) → `AttributeError` from `.append`. -/
def decodeStep (delete : Bool) (cwd : String) (st : DecodeState)
    (out : String × String) : Except (PyErr × DecodeState) DecodeState :=
  let p := abspath cwd out.2
  let st1 : DecodeState :=
    { st with opened := st.opened ++ [p],
              removed := st.removed ++ (if delete then [out.2] else []) }
  let t := slower out.1
  match slookup st1.dict t with
  | none => Except.ok { st1 with dict := tagsAdd (sset st1.dict t (Attr.aimage p)) t }
  | some (Attr.aimage i) =>
    Except.ok { st1 with dict := sset st1.dict t (Attr.aimages [i, p]) }
  | some (Attr.aimages l) =>
    Except.ok { st1 with dict := sset st1.dict t (Attr.aimages (l ++ [p])) }
  | some (Attr.astr _) => Except.error (PyErr.attributeError, st1)
  | some (Attr.atags _) => Except.error (PyErr.attributeError, st1)

/-- The decoding loop: stops at the first raised exception. -/
def decodeLoop (delete : Bool) (cwd : String) :
    List (String × String) → DecodeState → Option PyErr × DecodeState
  | [], st => (none, st)
  | o :: rest, st =>
    match decodeStep delete cwd st o with
    | Except.error (e, st') => (some e, st')
    | Except.ok st' => decodeLoop delete cwd rest st'

/-- `Result.__init__(recipedefs, res, delete)`: record `self.dir`; if the
error flag is set raise `CplError("%s in %s" % (msg, loc))` before opening
anything; otherwise create the empty `self.tags` set and run the grouping
loop over the outputs. -/
def decode (cwd : String) (res : RawResult) (delete : Bool) :
    Option PyErr × DecodeState :=
  let st0 : DecodeState := ⟨[("dir", Attr.astr cwd)], [], []⟩
  if res.errorFlag then
    (some (PyErr.cplError (res.errorMessage ++ " in " ++ res.errorLocation)), st0)
  else
    decodeLoop delete cwd res.outputs
      ⟨[("dir", Attr.astr cwd), ("tags", Attr.atags [])], [], []⟩

/-- The images reported under lowercased tag `t`, in report order, as the
absolute paths they are opened from. -/
def imagesFor (cwd : String) (outs : List (String × String)) (t : String) :
    List String :=
  (outs.filter (fun o => slower o.1 == t)).map (fun o => abspath cwd o.2)

/-- The grouping shape for a run of images under one tag: none, a direct
scalar, or the ordered list — the asymmetric promotion rule. -/
def groupOf : List String → Option Attr
  | [] => none
  | [i] => some (Attr.aimage i)
  | i :: j :: rest => some (Attr.aimages (i :: j :: rest))

theorem slookup_sset_self {α : Type} (d : List (String × α)) (k : String) (v : α) :
    slookup (sset d k v) k = some v := by
  induction d with
  | nil => simp [sset, slookup]
  | cons hd rest ih =>
    obtain ⟨k', v'⟩ := hd
    by_cases h : k' = k
    · simp [sset, slookup, h]
    · simp [sset, slookup, h, ih]

theorem slookup_sset_ne {α : Type} (d : List (String × α)) (k k' : String) (v : α)
    (h : ¬k = k') : slookup (sset d k v) k' = slookup d k' := by
  induction d with
  | nil => simp [sset, slookup, h]
  | cons hd rest ih =>
    obtain ⟨k0, v0⟩ := hd
    by_cases h0 : k0 = k
    · subst h0
      simp [sset, slookup, h]
    · simp [sset, slookup, h0, ih]

theorem slookup_tagsAdd_ne (d : List (String × Attr)) (t u : String)
    (h : ¬u = "tags") : slookup (tagsAdd d t) u = slookup d u := by
  unfold tagsAdd
  cases hl : slookup d "tags" with
  | none => rfl
  | some a =>
    cases a with
    | atags s => exact slookup_sset_ne d "tags" u _ (fun he => h he.symm)
    | astr s => rfl
    | aimage s => rfl
    | aimages s => rfl

theorem slookup_tagsAdd_tags (d : List (String × Attr)) (t : String)
    (s : List String) (h : slookup d "tags" = some (Attr.atags s)) :
    slookup (tagsAdd d t) "tags" =
      some (Attr.atags (if t ∈ s then s else s ++ [t])) := by
  unfold tagsAdd
  rw [h]
  exact slookup_sset_self d "tags" _

theorem imagesFor_cons (cwd : String) (o : String × String)
    (rest : List (String × String)) (t : String) :
    imagesFor cwd (o :: rest) t =
      (if slower o.1 = t then [abspath cwd o.2] else []) ++ imagesFor cwd rest t := by
  by_cases h : slower o.1 = t <;> simp [imagesFor, List.filter_cons, h]

/-- C3: when the raw result's error flag is set, decoding raises the typed
`CplError` carrying `"message in location"`, opens no output file
(`opened = []`), removes nothing, and exposes no grouped per-tag attributes
(the namespace holds only `dir`) — regardless of the outputs sequence. -/
theorem claim3_error_atomic (cwd : String) (res : RawResult) (delete : Bool)
    (h : res.errorFlag = true) :
    decode cwd res delete =
      (some (PyErr.cplError (res.errorMessage ++ " in " ++ res.errorLocation)),
        ⟨[("dir", Attr.astr cwd)], [], []⟩) := by
  simp [decode, h]

/-- C3 witness: error flag set with a non-empty outputs list. -/
theorem claim3_witness :
    decode "/work" ⟨[("SCI", "out.fits")], true, "boom", "recipe step 2"⟩ true =
      (some (PyErr.cplError ("boom" ++ " in " ++ "recipe step 2")),
        ⟨[("dir", Attr.astr "/work")], [], []⟩) :=
  claim3_error_atomic "/work" ⟨[("SCI", "out.fits")], true, "boom", "recipe step 2"⟩
    true (by decide)

theorem decodeStep_fresh (delete : Bool) (cwd : String) (st : DecodeState)
    (o : String × String) (h : slookup st.dict (slower o.1) = none) :
    decodeStep delete cwd st o = Except.ok
      ⟨tagsAdd (sset st.dict (slower o.1) (Attr.aimage (abspath cwd o.2)))
          (slower o.1),
        st.opened ++ [abspath cwd o.2],
        st.removed ++ (if delete then [o.2] else [])⟩ := by
  simp [decodeStep, h]

theorem decodeStep_promote (delete : Bool) (cwd : String) (st : DecodeState)
    (o : String × String) (i : String)
    (h : slookup st.dict (slower o.1) = some (Attr.aimage i)) :
    decodeStep delete cwd st o = Except.ok
      ⟨sset st.dict (slower o.1) (Attr.aimages [i, abspath cwd o.2]),
        st.opened ++ [abspath cwd o.2],
        st.removed ++ (if delete then [o.2] else [])⟩ := by
  simp [decodeStep, h]

theorem decodeStep_extend (delete : Bool) (cwd : String) (st : DecodeState)
    (o : String × String) (l : List String)
    (h : slookup st.dict (slower o.1) = some (Attr.aimages l)) :
    decodeStep delete cwd st o = Except.ok
      ⟨sset st.dict (slower o.1) (Attr.aimages (l ++ [abspath cwd o.2])),
        st.opened ++ [abspath cwd o.2],
        st.removed ++ (if delete then [o.2] else [])⟩ := by
  simp [decodeStep, h]

theorem decodeStep_astr (delete : Bool) (cwd : String) (st : DecodeState)
    (o : String × String) (s : String)
    (h : slookup st.dict (slower o.1) = some (Attr.astr s)) :
    decodeStep delete cwd st o = Except.error (PyErr.attributeError,
      ⟨st.dict, st.opened ++ [abspath cwd o.2],
        st.removed ++ (if delete then [o.2] else [])⟩) := by
  simp [decodeStep, h]

theorem decodeStep_atags (delete : Bool) (cwd : String) (st : DecodeState)
    (o : String × String) (s : List String)
    (h : slookup st.dict (slower o.1) = some (Attr.atags s)) :
    decodeStep delete cwd st o = Except.error (PyErr.attributeError,
      ⟨st.dict, st.opened ++ [abspath cwd o.2],
        st.removed ++ (if delete then [o.2] else [])⟩) := by
  simp [decodeStep, h]

/-- The grouping invariant carried through the decode loop, when no output
tag lowercases to `"dir"` or `"tags"`. -/
theorem decodeLoop_main (delete : Bool) (cwd : String) :
    ∀ (outs : List (String × String)) (st : DecodeState) (tl : List String)
      (seen : String → List String),
    slookup st.dict "dir" = some (Attr.astr cwd) →
    slookup st.dict "tags" = some (Attr.atags tl) →
    (∀ t, ¬t = "dir" → ¬t = "tags" → slookup st.dict t = groupOf (seen t)) →
    (∀ t, tl.count t = if seen t = [] then 0 else 1) →
    (∀ o ∈ outs, ¬slower o.1 = "dir" ∧ ¬slower o.1 = "tags") →
    ∃ st' tl',
      decodeLoop delete cwd outs st = (none, st') ∧
      slookup st'.dict "dir" = some (Attr.astr cwd) ∧
      slookup st'.dict "tags" = some (Attr.atags tl') ∧
      (∀ t, ¬t = "dir" → ¬t = "tags" →
        slookup st'.dict t = groupOf (seen t ++ imagesFor cwd outs t)) ∧
      (∀ t, tl'.count t = if seen t ++ imagesFor cwd outs t = [] then 0 else 1) := by
  intro outs
  induction outs with
  | nil =>
    intro st tl seen h1 h2 h3 h4 _
    refine ⟨st, tl, rfl, h1, h2, ?_, ?_⟩
    · intro t hd ht
      simpa [imagesFor] using h3 t hd ht
    · intro t
      simpa [imagesFor] using h4 t
  | cons o rest ih =>
    intro st tl seen h1 h2 h3 h4 hsafe
    obtain ⟨hod, hot⟩ := hsafe o (List.mem_cons_self o rest)
    have hlk : slookup st.dict (slower o.1) = groupOf (seen (slower o.1)) :=
      h3 (slower o.1) hod hot
    have hsafe' : ∀ q ∈ rest, ¬slower q.1 = "dir" ∧ ¬slower q.1 = "tags" :=
      fun q hq => hsafe q (List.mem_cons_of_mem o hq)
    cases hseen : seen (slower o.1) with
    | nil =>
      -- fresh tag: scalar insert plus tag-set add
      have hnone : slookup st.dict (slower o.1) = none := by
        rw [hlk, hseen]; rfl
      have hstep := decodeStep_fresh delete cwd st o hnone
      have hnotin : ¬slower o.1 ∈ tl := by
        have := h4 (slower o.1)
        rw [hseen] at this
        simp only [if_pos rfl] at this
        exact List.count_eq_zero.mp this
      have h2' : slookup (tagsAdd (sset st.dict (slower o.1)
          (Attr.aimage (abspath cwd o.2))) (slower o.1)) "tags" =
          some (Attr.atags (tl ++ [slower o.1])) := by
        rw [slookup_tagsAdd_tags _ _ tl
          (by rw [slookup_sset_ne _ _ _ _ hot]; exact h2)]
        simp [hnotin]
      have h1' : slookup (tagsAdd (sset st.dict (slower o.1)
          (Attr.aimage (abspath cwd o.2))) (slower o.1)) "dir" =
          some (Attr.astr cwd) := by
        rw [slookup_tagsAdd_ne _ _ _ (by decide)]
        rw [slookup_sset_ne _ _ _ _ hod]
        exact h1
      have h3' : ∀ t, ¬t = "dir" → ¬t = "tags" →
          slookup (tagsAdd (sset st.dict (slower o.1)
            (Attr.aimage (abspath cwd o.2))) (slower o.1)) t =
          groupOf (if t = slower o.1 then [abspath cwd o.2] else seen t) := by
        intro t hd ht
        rw [slookup_tagsAdd_ne _ _ _ ht]
        by_cases he : t = slower o.1
        · subst he
          rw [slookup_sset_self]
          simp [groupOf]
        · rw [slookup_sset_ne _ _ _ _ (fun hx => he hx.symm)]
          rw [h3 t hd ht]
          simp [he]
      have h4' : ∀ t, (tl ++ [slower o.1]).count t =
          if (if t = slower o.1 then [abspath cwd o.2] else seen t) = []
          then 0 else 1 := by
        intro t
        by_cases he : t = slower o.1
        · subst he
          have hc := h4 (slower o.1)
          rw [hseen] at hc
          simp only [if_pos rfl] at hc
          simp [List.count_append, hc]
        · have hne : ¬(slower o.1 = t) := fun hx => he hx.symm
          simp [List.count_append, List.count_cons, hne, he, h4 t]
      obtain ⟨st', tl', hrun, g1, g2, g3, g4⟩ :=
        ih ⟨tagsAdd (sset st.dict (slower o.1)
            (Attr.aimage (abspath cwd o.2))) (slower o.1),
          st.opened ++ [abspath cwd o.2],
          st.removed ++ (if delete then [o.2] else [])⟩
          (tl ++ [slower o.1])
          (fun t => if t = slower o.1 then [abspath cwd o.2] else seen t)
          h1' h2' h3' h4' hsafe'
      refine ⟨st', tl', ?_, g1, g2, ?_, ?_⟩
      · rw [decodeLoop, hstep]
        exact hrun
      · intro t hd ht
        rw [g3 t hd ht, imagesFor_cons]
        by_cases he : t = slower o.1
        · subst he
          simp [hseen]
        · have hne : ¬slower o.1 = t := fun hx => he hx.symm
          simp [hne, he]
      · intro t
        rw [g4 t, imagesFor_cons]
        by_cases he : t = slower o.1
        · subst he
          simp [hseen]
        · have hne : ¬slower o.1 = t := fun hx => he hx.symm
          simp [hne, he]
    | cons i tail =>
      cases tail with
      | nil =>
        -- second image: promote the scalar to a two-element list
        have hsingle : slookup st.dict (slower o.1) = some (Attr.aimage i) := by
          rw [hlk, hseen]; rfl
        have hstep := decodeStep_promote delete cwd st o i hsingle
        have h1' : slookup (sset st.dict (slower o.1)
            (Attr.aimages [i, abspath cwd o.2])) "dir" = some (Attr.astr cwd) := by
          rw [slookup_sset_ne _ _ _ _ hod]; exact h1
        have h2' : slookup (sset st.dict (slower o.1)
            (Attr.aimages [i, abspath cwd o.2])) "tags" = some (Attr.atags tl) := by
          rw [slookup_sset_ne _ _ _ _ hot]; exact h2
        have h3' : ∀ t, ¬t = "dir" → ¬t = "tags" →
            slookup (sset st.dict (slower o.1)
              (Attr.aimages [i, abspath cwd o.2])) t =
            groupOf (if t = slower o.1 then [i, abspath cwd o.2] else seen t) := by
          intro t hd ht
          by_cases he : t = slower o.1
          · subst he
            rw [slookup_sset_self]
            simp [groupOf]
          · rw [slookup_sset_ne _ _ _ _ (fun hx => he hx.symm)]
            rw [h3 t hd ht]
            simp [he]
        have h4' : ∀ t, tl.count t =
            if (if t = slower o.1 then [i, abspath cwd o.2] else seen t) = []
            then 0 else 1 := by
          intro t
          by_cases he : t = slower o.1
          · subst he
            have hc := h4 (slower o.1)
            rw [hseen] at hc
            simpa using hc
          · simp [he, h4 t]
        obtain ⟨st', tl', hrun, g1, g2, g3, g4⟩ :=
          ih ⟨sset st.dict (slower o.1) (Attr.aimages [i, abspath cwd o.2]),
            st.opened ++ [abspath cwd o.2],
            st.removed ++ (if delete then [o.2] else [])⟩
            tl (fun t => if t = slower o.1 then [i, abspath cwd o.2] else seen t)
            h1' h2' h3' h4' hsafe'
        refine ⟨st', tl', ?_, g1, g2, ?_, ?_⟩
        · rw [decodeLoop, hstep]
          exact hrun
        · intro t hd ht
          rw [g3 t hd ht, imagesFor_cons]
          by_cases he : t = slower o.1
          · subst he
            simp [hseen]
          · have hne : ¬slower o.1 = t := fun hx => he hx.symm
            simp [hne, he]
        · intro t
          rw [g4 t, imagesFor_cons]
          by_cases he : t = slower o.1
          · subst he
            simp [hseen]
          · have hne : ¬slower o.1 = t := fun hx => he hx.symm
            simp [hne, he]
      | cons j tail2 =>
        -- third and later image: append to the existing list
        have hlist : slookup st.dict (slower o.1) =
            some (Attr.aimages (i :: j :: tail2)) := by
          rw [hlk, hseen]; rfl
        have hstep := decodeStep_extend delete cwd st o (i :: j :: tail2) hlist
        have h1' : slookup (sset st.dict (slower o.1)
            (Attr.aimages ((i :: j :: tail2) ++ [abspath cwd o.2]))) "dir" =
            some (Attr.astr cwd) := by
          rw [slookup_sset_ne _ _ _ _ hod]; exact h1
        have h2' : slookup (sset st.dict (slower o.1)
            (Attr.aimages ((i :: j :: tail2) ++ [abspath cwd o.2]))) "tags" =
            some (Attr.atags tl) := by
          rw [slookup_sset_ne _ _ _ _ hot]; exact h2
        have h3' : ∀ t, ¬t = "dir" → ¬t = "tags" →
            slookup (sset st.dict (slower o.1)
              (Attr.aimages ((i :: j :: tail2) ++ [abspath cwd o.2]))) t =
            groupOf (if t = slower o.1 then (i :: j :: tail2) ++ [abspath cwd o.2]
              else seen t) := by
          intro t hd ht
          by_cases he : t = slower o.1
          · subst he
            rw [slookup_sset_self]
            simp [groupOf]
          · rw [slookup_sset_ne _ _ _ _ (fun hx => he hx.symm)]
            rw [h3 t hd ht]
            simp [he]
        have h4' : ∀ t, tl.count t =
            if (if t = slower o.1 then (i :: j :: tail2) ++ [abspath cwd o.2]
              else seen t) = [] then 0 else 1 := by
          intro t
          by_cases he : t = slower o.1
          · subst he
            have hc := h4 (slower o.1)
            rw [hseen] at hc
            simpa using hc
          · simp [he, h4 t]
        obtain ⟨st', tl', hrun, g1, g2, g3, g4⟩ :=
          ih ⟨sset st.dict (slower o.1)
              (Attr.aimages ((i :: j :: tail2) ++ [abspath cwd o.2])),
            st.opened ++ [abspath cwd o.2],
            st.removed ++ (if delete then [o.2] else [])⟩
            tl (fun t => if t = slower o.1 then (i :: j :: tail2) ++ [abspath cwd o.2]
              else seen t)
            h1' h2' h3' h4' hsafe'
        refine ⟨st', tl', ?_, g1, g2, ?_, ?_⟩
        · rw [decodeLoop, hstep]
          exact hrun
        · intro t hd ht
          rw [g3 t hd ht, imagesFor_cons]
          by_cases he : t = slower o.1
          · subst he
            simp [hseen]
          · have hne : ¬slower o.1 = t := fun hx => he hx.symm
            simp [hne, he]
        · intro t
          rw [g4 t, imagesFor_cons]
          by_cases he : t = slower o.1
          · subst he
            simp [hseen]
          · have hne : ¬slower o.1 = t := fun hx => he hx.symm
            simp [hne, he]

/-- C4: for every successful decode (error flag clear and — equivalently to
success, see C10 — no output tag lowercasing to `"dir"`/`"tags"`), grouping
follows the asymmetric promotion rule exactly: the images reported under each
lowercased tag, in report order, are exposed as `groupOf` prescribes (one
image → a direct scalar, never a list; two → the ordered pair list; more →
appended in order), and the tag set holds each distinct lowercased output
tag exactly once. -/
theorem claim4_grouping (cwd : String) (res : RawResult) (delete : Bool)
    (hflag : res.errorFlag = false)
    (hsafe : ∀ o ∈ res.outputs, ¬slower o.1 = "dir" ∧ ¬slower o.1 = "tags") :
    ∃ st tl,
      decode cwd res delete = (none, st) ∧
      slookup st.dict "tags" = some (Attr.atags tl) ∧
      (∀ t, ¬t = "dir" → ¬t = "tags" →
        slookup st.dict t = groupOf (imagesFor cwd res.outputs t)) ∧
      (∀ t, tl.count t = if imagesFor cwd res.outputs t = [] then 0 else 1) := by
  obtain ⟨st', tl', hrun, _, g2, g3, g4⟩ :=
    decodeLoop_main delete cwd res.outputs
      ⟨[("dir", Attr.astr cwd), ("tags", Attr.atags [])], [], []⟩ [] (fun _ => [])
      (by simp [slookup]) (by simp [slookup])
      (by
        intro t hd ht
        have hd' : ¬("dir" = t) := fun h => hd h.symm
        have ht' : ¬("tags" = t) := fun h => ht h.symm
        simp [slookup, hd', ht', groupOf])
      (by simp)
      hsafe
  refine ⟨st', tl', ?_, g2, ?_, ?_⟩
  · rw [decode, if_neg (by simp [hflag])]
    exact hrun
  · intro t hd ht
    simpa using g3 t hd ht
  · intro t
    simpa using g4 t

/-- C4 witness: two outputs under `"MASTER_BIAS"` and one under
`"MASTER_FLAT"` decode successfully with the claimed grouping. -/
theorem claim4_witness :
    ∃ st tl,
      decode "/w" ⟨[("MASTER_BIAS", "b1.fits"), ("MASTER_BIAS", "b2.fits"),
          ("MASTER_FLAT", "f.fits")], false, "", ""⟩ true = (none, st) ∧
      slookup st.dict "tags" = some (Attr.atags tl) ∧
      (∀ t, ¬t = "dir" → ¬t = "tags" →
        slookup st.dict t = groupOf (imagesFor "/w"
          [("MASTER_BIAS", "b1.fits"), ("MASTER_BIAS", "b2.fits"),
            ("MASTER_FLAT", "f.fits")] t)) ∧
      (∀ t, tl.count t = if imagesFor "/w"
          [("MASTER_BIAS", "b1.fits"), ("MASTER_BIAS", "b2.fits"),
            ("MASTER_FLAT", "f.fits")] t = [] then 0 else 1) :=
  claim4_grouping "/w"
    ⟨[("MASTER_BIAS", "b1.fits"), ("MASTER_BIAS", "b2.fits"),
      ("MASTER_FLAT", "f.fits")], false, "", ""⟩ true (by decide) (by decide)

theorem decodeLoop_append (delete : Bool) (cwd : String)
    (xs ys : List (String × String)) (st : DecodeState) :
    decodeLoop delete cwd (xs ++ ys) st =
      match decodeLoop delete cwd xs st with
      | (some e, st') => (some e, st')
      | (none, st') => decodeLoop delete cwd ys st' := by
  induction xs generalizing st with
  | nil => rfl
  | cons o rest ih =>
    show decodeLoop delete cwd (o :: (rest ++ ys)) st = _
    cases hs : decodeStep delete cwd st o with
    | error p =>
      obtain ⟨e, st1⟩ := p
      simp [decodeLoop, hs]
    | ok st1 =>
      simp [decodeLoop, hs, ih]

/-- C10: if a raw (non-error) result's outputs contain an entry whose
lowercased tag is `"dir"` or `"tags"` (the first such entry, after a clean
prefix), that tag is treated as already seen: the decode stops with the
`AttributeError` raised by calling `.append` on the pre-existing non-image
attribute; the offending tag is never added to the tag set; its namespace
entry keeps the pre-existing `dir` string / `tags` set and never becomes a
fresh scalar image.  Hence the documented grouping postconditions hold only
when no output tag lowercases to `"dir"` or `"tags"`. -/
theorem claim10_namespace_collision (cwd : String) (res : RawResult)
    (delete : Bool) (pre : List (String × String)) (o : String × String)
    (tail : List (String × String))
    (hout : res.outputs = pre ++ o :: tail)
    (hflag : res.errorFlag = false)
    (hpre : ∀ q ∈ pre, ¬slower q.1 = "dir" ∧ ¬slower q.1 = "tags")
    (hcol : slower o.1 = "dir" ∨ slower o.1 = "tags") :
    ∃ st tl,
      decode cwd res delete = (some PyErr.attributeError, st) ∧
      slookup st.dict "dir" = some (Attr.astr cwd) ∧
      slookup st.dict "tags" = some (Attr.atags tl) ∧
      ¬slower o.1 ∈ tl ∧
      (∀ img, ¬slookup st.dict (slower o.1) = some (Attr.aimage img)) := by
  obtain ⟨stMid, tl, hrun, g1, g2, _, g4⟩ :=
    decodeLoop_main delete cwd pre
      ⟨[("dir", Attr.astr cwd), ("tags", Attr.atags [])], [], []⟩ [] (fun _ => [])
      (by simp [slookup]) (by simp [slookup])
      (by
        intro t hd ht
        have hd' : ¬("dir" = t) := fun h => hd h.symm
        have ht' : ¬("tags" = t) := fun h => ht h.symm
        simp [slookup, hd', ht', groupOf])
      (by simp)
      hpre
  have hnotin : ¬slower o.1 ∈ tl := by
    have hcount := g4 (slower o.1)
    have himg : imagesFor cwd pre (slower o.1) = [] := by
      unfold imagesFor
      rw [List.map_eq_nil_iff, List.filter_eq_nil_iff]
      intro q hq
      obtain ⟨hq1, hq2⟩ := hpre q hq
      cases hcol with
      | inl h => simpa [h] using fun he => hq1 he
      | inr h => simpa [h] using fun he => hq2 he
    rw [himg] at hcount
    simp only [List.nil_append, if_pos rfl] at hcount
    exact List.count_eq_zero.mp hcount
  cases hcol with
  | inl hdirc =>
    have hstep := decodeStep_astr delete cwd stMid o cwd (by rw [hdirc]; exact g1)
    refine ⟨⟨stMid.dict, stMid.opened ++ [abspath cwd o.2],
        stMid.removed ++ (if delete then [o.2] else [])⟩, tl, ?_, g1, g2, hnotin, ?_⟩
    · rw [decode, if_neg (by simp [hflag]), hout, decodeLoop_append, hrun]
      simp [decodeLoop, hstep]
    · intro img
      rw [hdirc, g1]
      simp
  | inr htagc =>
    have hstep := decodeStep_atags delete cwd stMid o tl (by rw [htagc]; exact g2)
    refine ⟨⟨stMid.dict, stMid.opened ++ [abspath cwd o.2],
        stMid.removed ++ (if delete then [o.2] else [])⟩, tl, ?_, g1, g2, hnotin, ?_⟩
    · rw [decode, if_neg (by simp [hflag]), hout, decodeLoop_append, hrun]
      simp [decodeLoop, hstep]
    · intro img
      rw [htagc, g2]
      simp

/-- C10 witness: an output tagged `"DIR"` (lowercasing to `"dir"`) after a
clean `"SCI"` output makes the decode fail with `AttributeError`, with
`"dir"` still holding the working-directory string and absent from the tag
set. -/
theorem claim10_witness :
    ∃ st tl,
      decode "/w" ⟨[("SCI", "s.fits"), ("DIR", "d.fits")], false, "", ""⟩ true =
        (some PyErr.attributeError, st) ∧
      slookup st.dict "dir" = some (Attr.astr "/w") ∧
      slookup st.dict "tags" = some (Attr.atags tl) ∧
      ¬slower "DIR" ∈ tl ∧
      (∀ img, ¬slookup st.dict (slower "DIR") = some (Attr.aimage img)) :=
  claim10_namespace_collision "/w"
    ⟨[("SCI", "s.fits"), ("DIR", "d.fits")], false, "", ""⟩ true
    [("SCI", "s.fits")] ("DIR", "d.fits") [] (by decide) (by decide)
    (by decide) (by decide)

/-! ## `mkabspath` — materializing frames to absolute paths (claim C5) -/

/-- Is this item an in-memory `HDUList`? (`isinstance(frame[1],
pyfits.HDUList)`). -/
def isHduItem : Item → Bool
  | Item.hdulist _ => true
  | Item.path _ => false

/-- `mkabspath(frames, tmpdir)`.  The `tempfile.mkstemp` collaborator is the
oracle `mkstemp pfx n`, giving the full path (with the `.fits` suffix, under
`tmpdir`) of the `n`-th temporary file created in this pass; `n` counts the
creations so the call sequence is `n0, n0+1, …`.  An `HDUList` item is
written to a fresh temp file (prefix `tag ++ "-"`), its pair replaced by the
file's absolute path and that path recorded; a plain file name is replaced
by its absolute form.  Returns (final list, created temp files, next
counter). -/
def mkabspath (mkstemp : String → Nat → String) (cwd : String) :
    List (String × Item) → Nat →
      List (String × String) × List String × Nat
  | [], n => ([], [], n)
  | (tag, Item.hdulist _) :: rest, n =>
    ((tag, abspath cwd (mkstemp (tag ++ "-") n)) ::
        (mkabspath mkstemp cwd rest (n + 1)).1,
      abspath cwd (mkstemp (tag ++ "-") n) ::
        (mkabspath mkstemp cwd rest (n + 1)).2.1,
      (mkabspath mkstemp cwd rest (n + 1)).2.2)
  | (tag, Item.path p) :: rest, n =>
    ((tag, abspath cwd p) :: (mkabspath mkstemp cwd rest n).1,
      (mkabspath mkstemp cwd rest n).2.1,
      (mkabspath mkstemp cwd rest n).2.2)

theorem String.mk_data_eq (a b : String) (h : a.data = b.data) : a = b := by
  cases a; cases b; exact congrArg String.mk h

theorem isAbsB_append_left (a b : String) (hne : ¬a.data = []) :
    isAbsB (a ++ b) = isAbsB a := by
  unfold isAbsB
  rw [String.data_append, List.head?_append]
  cases hd : a.data with
  | nil => exact absurd hd hne
  | cons c rest => simp [hd]

theorem slash_data_ne (a : String) : ¬(a ++ "/").data = [] := by
  rw [String.data_append]
  simp [show ("/" : String).data = ['/'] from rfl]

theorem isAbsB_abspath (cwd p : String) (hcwd : isAbsB cwd = true) :
    isAbsB (abspath cwd p) = true := by
  unfold abspath
  by_cases h : isAbsB p = true
  · simp [h]
  · have hne : ¬cwd.data = [] := by
      intro he
      rw [isAbsB, he] at hcwd
      simp at hcwd
    rw [if_neg (by simpa using h), show cwd ++ "/" ++ p = (cwd ++ "/") ++ p from rfl,
      isAbsB_append_left _ _ (slash_data_ne cwd),
      isAbsB_append_left _ _ hne]
    exact hcwd

theorem str_append_cancel (s a b : String) (h : s ++ a = s ++ b) : a = b := by
  have hd := congrArg String.data h
  rw [String.data_append, String.data_append] at hd
  exact String.mk_data_eq a b (List.append_cancel_left hd)

theorem abspath_under_inj (cwd tmpdir x y : String)
    (hx : ∃ rx, x = tmpdir ++ "/" ++ rx) (hy : ∃ ry, y = tmpdir ++ "/" ++ ry)
    (h : abspath cwd x = abspath cwd y) : x = y := by
  obtain ⟨rx, rfl⟩ := hx
  obtain ⟨ry, rfl⟩ := hy
  have hxa : isAbsB (tmpdir ++ "/" ++ rx) = isAbsB (tmpdir ++ "/") := by
    rw [show tmpdir ++ "/" ++ rx = (tmpdir ++ "/") ++ rx from rfl]
    exact isAbsB_append_left _ _ (slash_data_ne tmpdir)
  have hya : isAbsB (tmpdir ++ "/" ++ ry) = isAbsB (tmpdir ++ "/") := by
    rw [show tmpdir ++ "/" ++ ry = (tmpdir ++ "/") ++ ry from rfl]
    exact isAbsB_append_left _ _ (slash_data_ne tmpdir)
  unfold abspath at h
  by_cases ha : isAbsB (tmpdir ++ "/") = true
  · rwa [if_pos (hxa.trans ha), if_pos (hya.trans ha)] at h
  · rw [if_neg (fun hc => ha (hxa ▸ hc)), if_neg (fun hc => ha (hya ▸ hc))] at h
    exact str_append_cancel (cwd ++ "/") _ _ h

/-- Every generated temp path in a tail call uses a counter at least `n`. -/
theorem mkabspath_tmp_shape (mkstemp : String → Nat → String) (cwd : String) :
    ∀ (frames : List (String × Item)) (n : Nat),
      ∀ x ∈ (mkabspath mkstemp cwd frames n).2.1,
        ∃ pr k, n ≤ k ∧ x = abspath cwd (mkstemp pr k) := by
  intro frames
  induction frames with
  | nil => intro n x hx; cases hx
  | cons f rest ih =>
    obtain ⟨tag, it⟩ := f
    intro n x hx
    cases it with
    | hdulist h =>
      rw [mkabspath] at hx
      cases List.mem_cons.mp hx with
      | inl he => exact ⟨tag ++ "-", n, Nat.le_refl n, he⟩
      | inr hmem =>
        obtain ⟨pr, k, hk, hxe⟩ := ih (n + 1) x hmem
        exact ⟨pr, k, Nat.le_of_succ_le hk, hxe⟩
    | path p =>
      rw [mkabspath] at hx
      exact ih n x hx

/-- The temp-file list has exactly one entry per `HDUList` pair. -/
theorem mkabspath_tmp_length (mkstemp : String → Nat → String) (cwd : String) :
    ∀ (frames : List (String × Item)) (n : Nat),
      (mkabspath mkstemp cwd frames n).2.1.length =
        (frames.filter (fun f => isHduItem f.2)).length := by
  intro frames
  induction frames with
  | nil => intro n; rfl
  | cons f rest ih =>
    obtain ⟨tag, it⟩ := f
    intro n
    cases it with
    | hdulist h => simp [mkabspath, List.filter_cons, isHduItem, ih]
    | path p => simp [mkabspath, List.filter_cons, isHduItem, ih]

/-- The generated temp paths are pairwise distinct (uniqueness delegated to
the `mkstemp` primitive, whose successive calls give distinct names). -/
theorem mkabspath_tmp_nodup (mkstemp : String → Nat → String)
    (cwd tmpdir : String)
    (hinj : ∀ p1 n1 p2 n2, mkstemp p1 n1 = mkstemp p2 n2 → n1 = n2)
    (hdir : ∀ p n, ∃ r, mkstemp p n = tmpdir ++ "/" ++ r) :
    ∀ (frames : List (String × Item)) (n : Nat),
      (mkabspath mkstemp cwd frames n).2.1.Nodup := by
  intro frames
  induction frames with
  | nil => intro n; exact List.nodup_nil
  | cons f rest ih =>
    obtain ⟨tag, it⟩ := f
    intro n
    cases it with
    | path p => rw [mkabspath]; exact ih n
    | hdulist h =>
      rw [mkabspath]
      refine List.nodup_cons.mpr ⟨?_, ih (n + 1)⟩
      intro hmem
      obtain ⟨pr, k, hk, hxe⟩ := mkabspath_tmp_shape mkstemp cwd rest (n + 1) _ hmem
      have heq : mkstemp (tag ++ "-") n = mkstemp pr k :=
        abspath_under_inj cwd tmpdir _ _ (hdir _ n) (hdir pr k) hxe
      have := hinj _ _ _ _ heq
      omega

/-- C5: after materializing, the output list is pointwise aligned with the
input (same length, same tags, same order): every item is an absolute path;
a path item becomes its absolute form and adds nothing to the temp-file
collection; an `HDUList` item becomes a freshly generated path under the
target directory that appears in the returned temp-file collection; the
collection has exactly one entry per `HDUList` pair and its entries are
pairwise distinct.  (The in-place mutation itself is a Python aliasing
property; the model returns the final list content.) -/
theorem claim5_materialize (mkstemp : String → Nat → String)
    (cwd tmpdir : String) (frames : List (String × Item)) (n0 : Nat)
    (hcwd : isAbsB cwd = true)
    (hinj : ∀ p1 n1 p2 n2, mkstemp p1 n1 = mkstemp p2 n2 → n1 = n2)
    (hdir : ∀ p n, ∃ r, mkstemp p n = tmpdir ++ "/" ++ r) :
    List.Forall₂ (fun (f : String × Item) (q : String × String) =>
        q.1 = f.1 ∧ isAbsB q.2 = true ∧
        (∀ p, f.2 = Item.path p → q.2 = abspath cwd p) ∧
        (∀ h, f.2 = Item.hdulist h →
          q.2 ∈ (mkabspath mkstemp cwd frames n0).2.1 ∧
          ∃ r, q.2 = abspath cwd (tmpdir ++ "/" ++ r)))
      frames (mkabspath mkstemp cwd frames n0).1 ∧
    (mkabspath mkstemp cwd frames n0).2.1.length =
      (frames.filter (fun f => isHduItem f.2)).length ∧
    (mkabspath mkstemp cwd frames n0).2.1.Nodup := by
  refine ⟨?_, mkabspath_tmp_length mkstemp cwd frames n0,
    mkabspath_tmp_nodup mkstemp cwd tmpdir hinj hdir frames n0⟩
  induction frames generalizing n0 with
  | nil => exact List.Forall₂.nil
  | cons f rest ih =>
    obtain ⟨tag, it⟩ := f
    cases it with
    | path p =>
      rw [mkabspath]
      refine List.Forall₂.cons ?_ ((ih n0).imp ?_)
      · refine ⟨rfl, isAbsB_abspath cwd p hcwd, ?_, ?_⟩
        · intro p' hp'
          cases hp'
          rfl
        · intro h' hh'
          cases hh'
      · intro a b hab
        refine ⟨hab.1, hab.2.1, hab.2.2.1, ?_⟩
        intro h' hh'
        obtain ⟨hmem, hr⟩ := hab.2.2.2 h' hh'
        exact ⟨hmem, hr⟩
    | hdulist h =>
      rw [mkabspath]
      refine List.Forall₂.cons ?_ ((ih (n0 + 1)).imp ?_)
      · refine ⟨rfl, ?_, ?_, ?_⟩
        · exact isAbsB_abspath cwd _ hcwd
        · intro p' hp'
          cases hp'
        · intro h' hh'
          refine ⟨?_, ?_⟩
          · exact List.mem_cons_self _ _
          · obtain ⟨r, hr⟩ := hdir (tag ++ "-") n0
            exact ⟨r, by rw [hr]⟩
      · intro a b hab
        refine ⟨hab.1, hab.2.1, hab.2.2.1, ?_⟩
        intro h' hh'
        obtain ⟨hmem, hr⟩ := hab.2.2.2 h' hh'
        exact ⟨List.mem_cons_of_mem _ hmem, hr⟩

/-- The concrete `mkstemp` oracle used by the C5 witness: the `n`-th file is
`/tmp/xx…x.fits` with `n` letters `x`, so distinct calls give distinct
names under `/tmp`. -/
def tmpNameOracle (_pfx : String) (n : Nat) : String :=
  "/tmp" ++ "/" ++ (String.mk (List.replicate n 'x') ++ ".fits")

/-- C5 witness: one in-memory image between two path items, with the
concrete `tmpNameOracle` collaborator. -/
theorem claim5_witness :
    List.Forall₂ (fun (f : String × Item) (q : String × String) =>
        q.1 = f.1 ∧ isAbsB q.2 = true ∧
        (∀ p, f.2 = Item.path p → q.2 = abspath "/cwd" p) ∧
        (∀ h, f.2 = Item.hdulist h →
          q.2 ∈ (mkabspath tmpNameOracle "/cwd" [("A", Item.path "x.fits"),
            ("B", Item.hdulist [0]), ("C", Item.path "/y.fits")] 0).2.1 ∧
          ∃ r, q.2 = abspath "/cwd" ("/tmp" ++ "/" ++ r)))
      [("A", Item.path "x.fits"), ("B", Item.hdulist [0]),
        ("C", Item.path "/y.fits")]
      (mkabspath tmpNameOracle "/cwd" [("A", Item.path "x.fits"),
        ("B", Item.hdulist [0]), ("C", Item.path "/y.fits")] 0).1 ∧
    (mkabspath tmpNameOracle "/cwd" [("A", Item.path "x.fits"),
      ("B", Item.hdulist [0]), ("C", Item.path "/y.fits")] 0).2.1.length =
      ([("A", Item.path "x.fits"), ("B", Item.hdulist [0]),
        ("C", Item.path "/y.fits")].filter (fun f => isHduItem f.2)).length ∧
    (mkabspath tmpNameOracle "/cwd" [("A", Item.path "x.fits"),
      ("B", Item.hdulist [0]), ("C", Item.path "/y.fits")] 0).2.1.Nodup := by
  refine claim5_materialize tmpNameOracle "/cwd" "/tmp"
    [("A", Item.path "x.fits"), ("B", Item.hdulist [0]),
      ("C", Item.path "/y.fits")] 0 (by decide) ?_ ?_
  · intro p1 n1 p2 n2 hx
    have hlen := congrArg (fun s => s.data.length) hx
    simp only [tmpNameOracle, String.data_append] at hlen
    simp only [List.length_append] at hlen
    have h1 : (String.mk (List.replicate n1 'x')).data.length = n1 := by
      simp
    have h2 : (String.mk (List.replicate n2 'x')).data.length = n2 := by
      simp
    simp only [h1, h2] at hlen
    omega
  · intro p n
    exact ⟨String.mk (List.replicate n 'x') ++ ".fits", rfl⟩

end Frames
